import Mathlib

/-!
# Verification of `indirect-pointer-example.c`

A shallow embedding of the linked-list append example.  The C heap is
modelled as a partial map from addresses (`Nat`) to nodes; `NULL` is
`Option.none`; `malloc` always returns a fresh address (`nextFresh`),
which is a legitimate allocator behaviour.  The two `while` loops are
fuel-indexed; running out of fuel (or dereferencing a dangling pointer)
yields `Option.none`, and termination theorems show the fuel needed is
exactly the chain length.  C `int` values are modelled as unbounded
`Int` (no claim under study depends on 32-bit wraparound) and strings
as Lean strings restricted in spirit to ASCII, where `Char.toNat` is
the character code.
-/

namespace IndirectPtr

/-- `struct list_entry { int value; struct list_entry* next; }` (lines 21–25). -/
structure list_entry where
  value : Int
  next : Option Nat
deriving DecidableEq, Repr

/-- Program state: the heap (partial map from addresses to nodes), the
next fresh address the allocator will hand out, and the caller's head
variable (`list_unordered` in `main`), i.e. the head slot whose address
the append functions receive. -/
structure State where
  heap : Nat → Option list_entry
  nextFresh : Nat
  head : Option Nat

/-- The empty initial state: no allocations, `list_unordered = NULL`. -/
def State.empty : State :=
  { heap := fun _ => none, nextFresh := 0, head := none }

/-- Write a node to the heap at an address. -/
def State.write (st : State) (a : Nat) (n : list_entry) : State :=
  { st with heap := fun x => if x = a then some n else st.heap x }

/-- `free(a)`: remove the node at address `a` from the heap. -/
def State.free (st : State) (a : Nat) : State :=
  { st with heap := fun x => if x = a then none else st.heap x }

/-- Lines 43–45: `new = malloc(...); new->value = value; new->next = NULL;`.
The fresh address is `st.nextFresh`. -/
def alloc (value : Int) (st : State) : State :=
  { st.write st.nextFresh { value := value, next := none } with
      nextFresh := st.nextFresh + 1 }

/-- Read the pointer stored in a slot (`*indirect`).  A slot — a location
of type `list_entry_t*` — is either the head slot itself (`none`) or the
`next` field of the node at address `a` (`some a`).  Reading through a
dangling address yields `none` (undefined behaviour in C). -/
def readSlot (st : State) : Option Nat → Option (Option Nat)
  | none => some st.head
  | some a => (st.heap a).map list_entry.next

/-- Store a pointer into a slot (`*indirect = p`). -/
def writeSlot (st : State) (s : Option Nat) (p : Option Nat) : State :=
  match s with
  | none => { st with head := p }
  | some a =>
      { st with heap := fun x =>
          if x = a then (st.heap x).map (fun n => { n with next := p })
          else st.heap x }

/-- The loop of `append_indirect` (lines 47–50):
`while (!(*indirect == NULL)) indirect = &((*indirect)->next);`.
Returns the slot `indirect` denotes when the loop exits; `none` means
the loop ran out of fuel or dereferenced a dangling pointer.  Each unit
of fuel pays for one evaluation of the loop condition, so a chain of
length `n` needs fuel `n + 1`. -/
def findTail (st : State) : Option Nat → Nat → Option (Option Nat)
  | _, 0 => none
  | s, fuel + 1 =>
      match readSlot st s with
      | none => none
      | some none => some s
      | some (some a) => findTail st (some a) fuel

/-- `append_indirect` (lines 36–53): allocate a node `{value, NULL}`,
walk the slot cursor from the head slot to the first empty slot, and
store the new node's address there. -/
def append_indirect (value : Int) (st : State) (fuel : Nat) : Option State :=
  let newAddr := st.nextFresh
  let st1 := alloc value st
  match findTail st1 none fuel with
  | none => none
  | some s => some (writeSlot st1 s (some newAddr))

/-- The loop of `append_direct` (lines 80–84):
`while (!(direct == NULL)) { prev = direct; direct = direct->next; }`.
Arguments are the running values of `direct` and `prev`; returns the
final value of `prev`.  Each unit of fuel pays for one execution of the
loop body, so a chain of length `n` needs fuel `n`. -/
def walkDirect (st : State) : Option Nat → Option Nat → Nat → Option (Option Nat)
  | none, prev, _ => some prev
  | some _, _, 0 => none
  | some a, _, fuel + 1 =>
      match st.heap a with
      | none => none
      | some n => walkDirect st n.next (some a) fuel

/-- `append_direct` (lines 67–93): allocate a node `{value, NULL}`, walk
`direct` down the chain tracking `prev`, then branch: if `prev == NULL`
write the head slot (`*direct_start = new`), else write `prev->next = new`. -/
def append_direct (value : Int) (st : State) (fuel : Nat) : Option State :=
  let newAddr := st.nextFresh
  let st1 := alloc value st
  match walkDirect st1 st1.head none fuel with
  | none => none
  | some none => some { st1 with head := some newAddr }
  | some (some p) =>
      some { st1 with heap := fun x =>
              if x = p then (st1.heap x).map (fun n => { n with next := some newAddr })
              else st1.heap x }

/-- Line 99: `void(*append)(int, void*) = (void*)append_indirect;` — the
driver's append strategy is the indirect one (the C function-pointer
cast is benign in practice; it denotes `append_indirect`). -/
def append : Int → State → Nat → Option State := append_indirect

/-- `seg st p addrs q` — a chain segment: starting from pointer `p` and
following `next` fields visits exactly the addresses `addrs` in order
and arrives at pointer `q`. -/
def seg (st : State) : Option Nat → List Nat → Option Nat → Prop
  | p, [], q => p = q
  | p, a :: rest, q =>
      p = some a ∧ ∃ n, st.heap a = some n ∧ seg st n.next rest q

/-- A complete `NULL`-terminated chain from pointer `p` through the
addresses `addrs`. -/
def chain (st : State) (p : Option Nat) (addrs : List Nat) : Prop :=
  seg st p addrs none

/-- The slot the append loops end at: the head slot `s` itself when the
chain is empty, otherwise the `next` slot of the last node. -/
def lastSlot (s : Option Nat) (addrs : List Nat) : Option Nat :=
  match addrs.getLast? with
  | none => s
  | some a => some a

/-- The values stored at a list of addresses (`0` as the don't-care
default at a dangling address, never exercised under `chain`). -/
def valuesAlong (st : State) (addrs : List Nat) : List Int :=
  addrs.map (fun a => ((st.heap a).map list_entry.value).getD 0)

/-- Collect the values along a pointer chain in traversal order (the
observation `main`'s loop at lines 153–163 makes, without the frees). -/
def traverse (st : State) : Option Nat → Nat → Option (List Int)
  | none, _ => some []
  | some _, 0 => none
  | some a, fuel + 1 =>
      match st.heap a with
      | none => none
      | some n => (traverse st n.next fuel).map (n.value :: ·)

/-- The build loop of `main` (lines 146–149) generalised to a value
sequence: append each value in order through the selected strategy
(`append = append_indirect`), the same fuel serving every call. -/
def buildLoop (vals : List Int) (st : State) (fuel : Nat) : Option State :=
  match vals with
  | [] => some st
  | v :: vs => (append v st fuel).bind (fun st2 => buildLoop vs st2 fuel)

/-- The same build loop routed through the other strategy,
`append_direct`, for the equivalence claim. -/
def buildLoopDirect (vals : List Int) (st : State) (fuel : Nat) : Option State :=
  match vals with
  | [] => some st
  | v :: vs => (append_direct v st fuel).bind (fun st2 => buildLoopDirect vs st2 fuel)

/-- Line 148: the value appended for a character `c` of `argv[1]` is
`c - '0'` — the character code minus 48, with no validation. -/
def charToValue (c : Char) : Int :=
  (c.toNat : Int) - 48

/-- C `isspace` on the default locale (space, \t, \n, \v, \f, \r). -/
def isSpaceC (c : Char) : Bool :=
  c = ' ' || c = '\t' || c = '\n' || c.toNat = 11 || c.toNat = 12 || c = '\r'

/-- Digit-accumulation phase of `atoi`: consume leading decimal digits,
stopping at the first non-digit. -/
def atoiDigits : List Char → Int → Int
  | [], acc => acc
  | c :: cs, acc =>
      if '0' ≤ c ∧ c ≤ '9' then atoiDigits cs (acc * 10 + ((c.toNat : Int) - 48))
      else acc

/-- Sign-and-digits phase of `atoi`, after whitespace skipping. -/
def atoiSigned : List Char → Int
  | [] => 0
  | c :: cs =>
      if c = '-' then - atoiDigits cs 0
      else if c = '+' then atoiDigits cs 0
      else atoiDigits (c :: cs) 0

/-- Whitespace-skipping phase of `atoi`. -/
def atoiSkip : List Char → Int
  | [] => 0
  | c :: cs => if isSpaceC c then atoiSkip cs else atoiSigned (c :: cs)

/-- C `atoi` (line 122), with the mathematical value (overflow of the C
`int` is undefined behaviour for `atoi` and is not modelled). -/
def atoi (s : String) : Int :=
  atoiSkip s.data

/-- Observable output events of `main`: the usage message block
(lines 115–118), the bad-iteration-count message (line 125), the
strategy announcement (line 135 or 138), and one line per visited node
(line 158: iteration index, node address, value, successor). -/
inductive OutEvent where
  | usage : OutEvent
  | badIterCount : OutEvent
  | strategy : String → OutEvent
  | node : Nat → Nat → Int → Option Nat → OutEvent
deriving DecidableEq, Repr

/-- The traversal-and-release loop of `main` (lines 153–163): walk the
chain from `p`, printing one `node` event per node when `output` is
set, and `free` each node after advancing past it.  Returns the final
state, the events, and the values in traversal order. -/
def traverseFree (iteration : Nat) (output : Bool) :
    State → Option Nat → Nat → Option (State × List OutEvent × List Int)
  | st, none, _ => some (st, [], [])
  | _, some _, 0 => none
  | st, some a, fuel + 1 =>
      match st.heap a with
      | none => none
      | some n =>
          (traverseFree iteration output (st.free a) n.next fuel).map
            (fun r =>
              (r.1,
               (if output then [OutEvent.node iteration a n.value n.next] else [])
                 ++ r.2.1,
               n.value :: r.2.2))

/-- The outer test loop of `main` (lines 142–164): run `count` more
iterations starting at index `iteration`; each iteration resets
`list_unordered` to `NULL`, builds a list from the characters of `s`
via `append`, then traverses and frees it.  Returns the final state,
all events, and the per-iteration traversal value sequences. -/
def iterLoop (s : List Char) (output : Bool) (fuel : Nat) :
    Nat → Nat → State → Option (State × List OutEvent × List (List Int))
  | 0, _, st => some (st, [], [])
  | count + 1, iteration, st =>
      let st0 := { st with head := none }
      match buildLoop (s.map charToValue) st0 fuel with
      | none => none
      | some st1 =>
          match traverseFree iteration output st1 st1.head fuel with
          | none => none
          | some (st2, evs, vals) =>
              (iterLoop s output fuel count (iteration + 1) st2).map
                (fun r => (r.1, evs ++ r.2.1, vals :: r.2.2))

/-- `main` (lines 104–167).  `argv` includes the program name, so
`argc = argv.length`.  Returns the exit status, the output events, and
the traversal value sequence of each iteration (empty on the error
paths, where no list is ever built). -/
def cMain (argv : List String) (fuel : Nat) :
    Option (Int × List OutEvent × List (List Int)) :=
  if argv.length < 3 then some (-1, [OutEvent.usage], [])
  else
    let num_itr := atoi (argv.getD 2 "")
    if num_itr < 1 then some (-1, [OutEvent.badIterCount], [])
    else
      let output := !(argv.length > 3 : Bool)
      let evs0 := if output then [OutEvent.strategy "Using indirect append"] else []
      (iterLoop (argv.getD 1 "").data output fuel num_itr.toNat 0 State.empty).map
        (fun r => (0, evs0 ++ r.2.1, r.2.2))

/-- Modelled from the spec (§4.3 Algorithm), for comparison with the
code's `append_direct`: keep a pair `(previous, current)`; `current` is
read from the head slot and `previous` starts as "none"; advance by
setting `previous := current` before each step `current := current.next`,
until `current` denotes no node; return the final pair. -/
def specAdvance (st : State) : Option Nat × Option Nat → Nat → Option (Option Nat × Option Nat)
  | (prev, cur), fuel =>
      match cur with
      | none => some (prev, none)
      | some a =>
          match fuel with
          | 0 => none
          | f + 1 =>
              match st.heap a with
              | none => none
              | some n => specAdvance st (cur, n.next) f

/-- Modelled from the spec (§4.3): after the walk, branch — if
`previous` is still "none" (the list was empty) write the new node's
reference directly into the head slot, otherwise write it into
`previous.next`. -/
def append_direct_specModel (value : Int) (st : State) (fuel : Nat) : Option State :=
  let newAddr := st.nextFresh
  let st1 := alloc value st
  match specAdvance st1 (none, st1.head) fuel with
  | none => none
  | some (none, _) => some { st1 with head := some newAddr }
  | some (some p, _) =>
      some { st1 with heap := fun x =>
              if x = p then (st1.heap x).map (fun n => { n with next := some newAddr })
              else st1.heap x }

/-- The state both append strategies produce on a well-formed chain:
allocate, then store the new address into the final slot. -/
def postAppend (value : Int) (st : State) (addrs : List Nat) : State :=
  writeSlot (alloc value st) (lastSlot none addrs) (some st.nextFresh)

/-- Well-formedness: the head variable points at a `NULL`-terminated
chain through `addrs`, all of whose addresses were actually allocated
(are below the allocator's fresh mark). -/
def Good (st : State) (addrs : List Nat) : Prop :=
  chain st st.head addrs ∧ ∀ a ∈ addrs, a < st.nextFresh

/-- A concrete two-node state (the list 3 → 2) used to instantiate the
theorems. -/
def demoState : State :=
  { heap := fun x =>
      if x = 0 then some { value := 3, next := some 1 }
      else if x = 1 then some { value := 2, next := none }
      else none,
    nextFresh := 2,
    head := some 0 }

/-! ## Chain-segment machinery -/

theorem seg_nil {st : State} {p q : Option Nat} : seg st p [] q ↔ p = q :=
  Iff.rfl

theorem seg_cons {st : State} {p q : Option Nat} {a : Nat} {rest : List Nat} :
    seg st p (a :: rest) q ↔
      p = some a ∧ ∃ n, st.heap a = some n ∧ seg st n.next rest q :=
  Iff.rfl

theorem seg_congr {st st' : State} :
    ∀ {addrs : List Nat} {p q : Option Nat},
      (∀ a ∈ addrs, st'.heap a = st.heap a) → seg st p addrs q → seg st' p addrs q := by
  intro addrs
  induction addrs with
  | nil => intro p q _ hs; exact hs
  | cons a rest ih =>
      intro p q h hs
      obtain ⟨hp, n, hn, hrest⟩ := hs
      refine ⟨hp, n, ?_, ih (fun b hb => h b (List.mem_cons_of_mem _ hb)) hrest⟩
      rw [h a (List.mem_cons_self _ _)]
      exact hn

theorem seg_append {st : State} :
    ∀ {l₁ l₂ : List Nat} {p q : Option Nat},
      seg st p (l₁ ++ l₂) q ↔ ∃ r, seg st p l₁ r ∧ seg st r l₂ q := by
  intro l₁
  induction l₁ with
  | nil =>
      intro l₂ p q
      constructor
      · intro h; exact ⟨p, rfl, h⟩
      · rintro ⟨r, hr, h⟩; cases hr; exact h
  | cons a rest ih =>
      intro l₂ p q
      constructor
      · rintro ⟨hp, n, hn, h⟩
        obtain ⟨r, h₁, h₂⟩ := ih.1 h
        exact ⟨r, ⟨hp, n, hn, h₁⟩, h₂⟩
      · rintro ⟨r, ⟨hp, n, hn, h₁⟩, h₂⟩
        exact ⟨hp, n, hn, ih.2 ⟨r, h₁, h₂⟩⟩

theorem chain_unique {st : State} :
    ∀ {l₁ : List Nat} {p : Option Nat} {l₂ : List Nat},
      seg st p l₁ none → seg st p l₂ none → l₁ = l₂ := by
  intro l₁
  induction l₁ with
  | nil =>
      intro p l₂ h₁ h₂
      cases l₂ with
      | nil => rfl
      | cons b r₂ =>
          cases h₁
          exact absurd h₂.1 (by simp)
  | cons a r₁ ih =>
      intro p l₂ h₁ h₂
      obtain ⟨hp, n, hn, hr₁⟩ := h₁
      cases l₂ with
      | nil => cases h₂; simp at hp
      | cons b r₂ =>
          obtain ⟨hp₂, m, hm, hr₂⟩ := h₂
          rw [hp] at hp₂
          obtain rfl : a = b := by injection hp₂
          rw [hn] at hm
          obtain rfl : n = m := by injection hm
          rw [ih hr₁ hr₂]

theorem chain_drop {st : State} :
    ∀ {l : List Nat} {p : Option Nat}, seg st p l none →
      ∀ i (h : i < l.length), seg st (some (l.get ⟨i, h⟩)) (l.drop i) none := by
  intro l
  induction l with
  | nil => intro p _ i h; exact absurd h (by simp)
  | cons a rest ih =>
      intro p hc i h
      obtain ⟨hp, n, hn, hrest⟩ := hc
      cases i with
      | zero => exact ⟨rfl, n, hn, hrest⟩
      | succ j => exact ih hrest j (Nat.lt_of_succ_lt_succ h)

theorem chain_nodup {st : State} {p : Option Nat} {l : List Nat}
    (h : seg st p l none) : l.Nodup := by
  rw [List.nodup_iff_injective_get]
  rintro ⟨i, hi⟩ ⟨j, hj⟩ hij
  have h₁ := chain_drop h i hi
  have h₂ := chain_drop h j hj
  rw [hij] at h₁
  have hd := chain_unique h₁ h₂
  have hlen := congrArg List.length hd
  simp only [List.length_drop] at hlen
  exact Fin.ext (show i = j by omega)

theorem chain_heap_mem {st : State} :
    ∀ {l : List Nat} {p : Option Nat}, seg st p l none →
      ∀ a ∈ l, ∃ n, st.heap a = some n := by
  intro l
  induction l with
  | nil => intro p _ a ha; exact absurd ha (by simp)
  | cons b rest ih =>
      intro p hc a ha
      obtain ⟨hp, n, hn, hrest⟩ := hc
      rcases List.mem_cons.1 ha with rfl | ha
      · exact ⟨n, hn⟩
      · exact ih hrest a ha

/-! ## The final slot and the two traversal loops -/

theorem lastSlot_nil (s : Option Nat) : lastSlot s [] = s := rfl

theorem lastSlot_cons (s : Option Nat) (a : Nat) (rest : List Nat) :
    lastSlot s (a :: rest) = lastSlot (some a) rest := by
  cases rest with
  | nil => rfl
  | cons b r =>
      unfold lastSlot
      rw [List.getLast?_cons_cons]
      cases hg : (b :: r).getLast? with
      | none => exact absurd (List.getLast?_eq_none_iff.1 hg) (by simp)
      | some c => rfl

theorem lastSlot_mem {addrs : List Nat} {p : Nat}
    (h : lastSlot none addrs = some p) : p ∈ addrs := by
  unfold lastSlot at h
  cases hg : addrs.getLast? with
  | none => rw [hg] at h; exact absurd h (by simp)
  | some b =>
      rw [hg] at h
      obtain rfl : b = p := by injection h
      obtain ⟨hne, rfl⟩ := List.mem_getLast?_eq_getLast (by rw [hg]; rfl)
      exact List.getLast_mem hne

theorem lastSlot_eq_none {addrs : List Nat}
    (h : lastSlot none addrs = none) : addrs = [] := by
  unfold lastSlot at h
  cases hg : addrs.getLast? with
  | none => exact List.getLast?_eq_none_iff.1 hg
  | some b => rw [hg] at h; exact absurd h (by simp)

theorem findTail_spec {st : State} :
    ∀ {addrs : List Nat} {p : Option Nat} (s : Option Nat),
      seg st p addrs none → readSlot st s = some p →
      ∀ {fuel : Nat}, addrs.length < fuel →
        findTail st s fuel = some (lastSlot s addrs) := by
  intro addrs
  induction addrs with
  | nil =>
      intro p s hc hs fuel hf
      cases hc
      match fuel, hf with
      | f + 1, _ => simp [findTail, hs, lastSlot_nil]
  | cons a rest ih =>
      intro p s hc hs fuel hf
      obtain ⟨rfl, n, hn, hrest⟩ := hc
      match fuel, hf with
      | f + 1, hf =>
          have hs' : readSlot st (some a) = some n.next := by
            simp [readSlot, hn]
          have hrec := ih (some a) hrest hs' (Nat.lt_of_succ_lt_succ hf)
          simp [findTail, hs, hrec, lastSlot_cons]

theorem findTail_min {st : State} :
    ∀ {addrs : List Nat} {p : Option Nat} (s : Option Nat),
      seg st p addrs none → readSlot st s = some p →
      findTail st s addrs.length = none := by
  intro addrs
  induction addrs with
  | nil => intro p s _ _; rfl
  | cons a rest ih =>
      intro p s hc hs
      obtain ⟨rfl, n, hn, hrest⟩ := hc
      have hs' : readSlot st (some a) = some n.next := by
        simp [readSlot, hn]
      simp [List.length_cons, findTail, hs, ih (some a) hrest hs']

theorem walkDirect_spec {st : State} :
    ∀ {addrs : List Nat} {p : Option Nat} (prev : Option Nat),
      seg st p addrs none →
      ∀ {fuel : Nat}, addrs.length ≤ fuel →
        walkDirect st p prev fuel = some (lastSlot prev addrs) := by
  intro addrs
  induction addrs with
  | nil =>
      intro p prev hc fuel _
      cases hc
      simp [walkDirect, lastSlot_nil]
  | cons a rest ih =>
      intro p prev hc fuel hf
      obtain ⟨rfl, n, hn, hrest⟩ := hc
      match fuel, hf with
      | f + 1, hf =>
          have hrec := ih (some a) hrest (Nat.le_of_succ_le_succ hf)
          simp [walkDirect, hn, hrec, lastSlot_cons]

theorem walkDirect_min {st : State} :
    ∀ {addrs : List Nat} {p : Option Nat} (prev : Option Nat),
      seg st p addrs none → addrs ≠ [] →
      walkDirect st p prev (addrs.length - 1) = none := by
  intro addrs
  induction addrs with
  | nil => intro p prev _ hne; exact absurd rfl hne
  | cons a rest ih =>
      intro p prev hc _
      obtain ⟨rfl, n, hn, hrest⟩ := hc
      cases rest with
      | nil => rfl
      | cons b r =>
          have hrec := ih (some a) hrest (by simp)
          simpa [walkDirect, hn] using hrec

/-! ## Allocation facts -/

theorem alloc_heap_ne {st : State} {v : Int} {a : Nat} (h : a ≠ st.nextFresh) :
    (alloc v st).heap a = st.heap a := by
  simp [alloc, State.write, h]

theorem alloc_heap_self {st : State} {v : Int} :
    (alloc v st).heap st.nextFresh = some { value := v, next := none } := by
  simp [alloc, State.write]

theorem alloc_head {st : State} {v : Int} : (alloc v st).head = st.head := rfl

theorem alloc_nextFresh {st : State} {v : Int} :
    (alloc v st).nextFresh = st.nextFresh + 1 := rfl

/-! ## Both append strategies compute `postAppend` -/

theorem chain_alloc {st : State} {v : Int} {addrs : List Nat} {p : Option Nat}
    (hc : seg st p addrs none) (hfr : ∀ a ∈ addrs, a < st.nextFresh) :
    seg (alloc v st) p addrs none :=
  seg_congr (fun a ha => alloc_heap_ne (Nat.ne_of_lt (hfr a ha))) hc

theorem append_indirect_eq {v : Int} {st : State} {addrs : List Nat} {fuel : Nat}
    (hc : chain st st.head addrs) (hfr : ∀ a ∈ addrs, a < st.nextFresh)
    (hf : addrs.length < fuel) :
    append_indirect v st fuel = some (postAppend v st addrs) := by
  have hc1 : seg (alloc v st) st.head addrs none := chain_alloc hc hfr
  have hft : findTail (alloc v st) none fuel = some (lastSlot none addrs) :=
    findTail_spec none hc1 (by simp [readSlot, alloc_head]) hf
  simp [append_indirect, hft, postAppend]

theorem append_direct_eq {v : Int} {st : State} {addrs : List Nat} {fuel : Nat}
    (hc : chain st st.head addrs) (hfr : ∀ a ∈ addrs, a < st.nextFresh)
    (hf : addrs.length < fuel) :
    append_direct v st fuel = some (postAppend v st addrs) := by
  have hc1 : seg (alloc v st) st.head addrs none := chain_alloc hc hfr
  have hwd : walkDirect (alloc v st) (alloc v st).head none fuel =
      some (lastSlot none addrs) := by
    rw [alloc_head]
    exact walkDirect_spec none hc1 (Nat.le_of_lt hf)
  cases hls : lastSlot none addrs with
  | none => simp [append_direct, hwd, hls, postAppend, writeSlot]
  | some p => simp [append_direct, hwd, hls, postAppend, writeSlot]

theorem specAdvance_eq_walkDirect (st : State) :
    ∀ (fuel : Nat) (cur prev : Option Nat),
      specAdvance st (prev, cur) fuel =
        (walkDirect st cur prev fuel).map (fun r => (r, none)) := by
  intro fuel
  induction fuel with
  | zero =>
      intro cur prev
      cases cur with
      | none => rfl
      | some a => rfl
  | succ f ih =>
      intro cur prev
      cases cur with
      | none => rfl
      | some a =>
          cases hn : st.heap a with
          | none => simp [specAdvance, walkDirect, hn]
          | some n => simp [specAdvance, walkDirect, hn, ih]

/-! ## Facts about the post-append state -/

theorem postAppend_nextFresh {v : Int} {st : State} {addrs : List Nat} :
    (postAppend v st addrs).nextFresh = st.nextFresh + 1 := by
  unfold postAppend writeSlot
  cases lastSlot none addrs with
  | none => rfl
  | some p => rfl

theorem postAppend_head_nil {v : Int} {st : State} :
    (postAppend v st []).head = some st.nextFresh := rfl

theorem postAppend_head_ne_nil {v : Int} {st : State} {addrs : List Nat}
    (h : addrs ≠ []) : (postAppend v st addrs).head = st.head := by
  unfold postAppend writeSlot
  cases hls : lastSlot none addrs with
  | none => exact absurd (lastSlot_eq_none hls) h
  | some p => rfl

theorem postAppend_heap_new {v : Int} {st : State} {addrs : List Nat}
    (hfr : ∀ a ∈ addrs, a < st.nextFresh) :
    (postAppend v st addrs).heap st.nextFresh = some { value := v, next := none } := by
  unfold postAppend writeSlot
  cases hls : lastSlot none addrs with
  | none => exact alloc_heap_self
  | some p =>
      have hne : st.nextFresh ≠ p := Nat.ne_of_gt (hfr p (lastSlot_mem hls))
      simp [hne, alloc_heap_self]

theorem postAppend_heap_stable {v : Int} {st : State} {addrs : List Nat} {a : Nat}
    (hfr : ∀ b ∈ addrs, b < st.nextFresh) (ha : a ∈ addrs)
    (hlast : addrs.getLast? ≠ some a) :
    (postAppend v st addrs).heap a = st.heap a := by
  have hne : a ≠ st.nextFresh := Nat.ne_of_lt (hfr a ha)
  unfold postAppend writeSlot
  cases hls : lastSlot none addrs with
  | none => exact alloc_heap_ne hne
  | some p =>
      have hap : a ≠ p := by
        intro h
        subst h
        revert hls
        unfold lastSlot
        cases hg : addrs.getLast? with
        | none => intro h; exact absurd h (by simp)
        | some b =>
            intro h
            obtain rfl : b = a := by injection h
            exact absurd hg hlast
      simp [hap, alloc_heap_ne hne]

theorem postAppend_heap_last {v : Int} {st : State} {addrs : List Nat} {p : Nat}
    (hc : chain st st.head addrs) (hfr : ∀ b ∈ addrs, b < st.nextFresh)
    (hlast : addrs.getLast? = some p) :
    ∃ n, st.heap p = some n ∧
      (postAppend v st addrs).heap p = some { n with next := some st.nextFresh } := by
  have hmem : p ∈ addrs := by
    obtain ⟨hne, rfl⟩ := List.mem_getLast?_eq_getLast (by rw [hlast]; rfl)
    exact List.getLast_mem hne
  obtain ⟨n, hn⟩ := chain_heap_mem hc p hmem
  refine ⟨n, hn, ?_⟩
  have hls : lastSlot none addrs = some p := by
    unfold lastSlot; rw [hlast]
  have hne : p ≠ st.nextFresh := Nat.ne_of_lt (hfr p hmem)
  simp [postAppend, writeSlot, hls, alloc_heap_ne hne, hn]

theorem append_direct_specModel_eq (v : Int) (st : State) (fuel : Nat) :
    append_direct_specModel v st fuel = append_direct v st fuel := by
  simp only [append_direct_specModel, append_direct, specAdvance_eq_walkDirect]
  cases walkDirect (alloc v st) (alloc v st).head none fuel with
  | none => rfl
  | some r =>
      cases r with
      | none => rfl
      | some p => rfl

theorem postAppend_chain {v : Int} {st : State} {addrs : List Nat}
    (hc : chain st st.head addrs) (hfr : ∀ a ∈ addrs, a < st.nextFresh) :
    chain (postAppend v st addrs) (postAppend v st addrs).head
      (addrs ++ [st.nextFresh]) := by
  rcases eq_or_ne addrs [] with rfl | hne
  · exact ⟨postAppend_head_nil, { value := v, next := none },
      postAppend_heap_new (by simp), rfl⟩
  · have hlast : addrs.getLast? = some (addrs.getLast hne) :=
      List.getLast?_eq_getLast_of_ne_nil hne
    have hdecomp : addrs.dropLast ++ [addrs.getLast hne] = addrs :=
      List.dropLast_append_getLast hne
    have hsplit : seg st st.head (addrs.dropLast ++ [addrs.getLast hne]) none := by
      rw [hdecomp]; exact hc
    obtain ⟨r, hinit, hlseg⟩ := seg_append.1 hsplit
    obtain ⟨hr, n, hn, hnil⟩ := hlseg
    have hnodup : addrs.Nodup := chain_nodup hc
    have hlast_not_init : addrs.getLast hne ∉ addrs.dropLast := by
      have := hdecomp ▸ hnodup
      have h' := (List.nodup_append.1 this).2.2
      intro hmem
      exact h' hmem (List.mem_singleton_self _)
    obtain ⟨m, hm, hmpost⟩ := postAppend_heap_last (v := v) hc hfr hlast
    show seg (postAppend v st addrs) (postAppend v st addrs).head (addrs ++ [st.nextFresh]) none
    have hlists : addrs ++ [st.nextFresh] =
        addrs.dropLast ++ ([addrs.getLast hne] ++ [st.nextFresh]) := by
      rw [← List.append_assoc, hdecomp]
    rw [postAppend_head_ne_nil hne, hlists]
    refine seg_append.2 ⟨some (addrs.getLast hne), ?_, ?_⟩
    · refine seg_congr (fun a ha => ?_) (hr ▸ hinit)
      have hin : a ∈ addrs := hdecomp ▸ List.mem_append_left _ ha
      refine postAppend_heap_stable hfr hin ?_
      rw [hlast]
      intro h
      obtain rfl : addrs.getLast hne = a := by injection h
      exact hlast_not_init ha
    · exact ⟨rfl, { m with next := some st.nextFresh }, hmpost,
        rfl, { value := v, next := none }, postAppend_heap_new hfr, rfl⟩

theorem postAppend_values {v : Int} {st : State} {addrs : List Nat}
    (hc : chain st st.head addrs) (hfr : ∀ a ∈ addrs, a < st.nextFresh) :
    valuesAlong (postAppend v st addrs) (addrs ++ [st.nextFresh]) =
      valuesAlong st addrs ++ [v] := by
  unfold valuesAlong
  rw [List.map_append]
  congr 1
  · refine List.map_congr_left (fun a ha => ?_)
    by_cases hl : addrs.getLast? = some a
    · obtain ⟨n, hn, hp⟩ := postAppend_heap_last (v := v) hc hfr hl
      simp [hn, hp]
    · rw [postAppend_heap_stable hfr ha hl]
  · simp [postAppend_heap_new hfr]

theorem traverse_spec {st : State} :
    ∀ {addrs : List Nat} {p : Option Nat}, seg st p addrs none →
      ∀ {fuel : Nat}, addrs.length ≤ fuel →
        traverse st p fuel = some (valuesAlong st addrs) := by
  intro addrs
  induction addrs with
  | nil =>
      intro p hc fuel _
      cases hc
      simp [traverse, valuesAlong]
  | cons a rest ih =>
      intro p hc fuel hf
      obtain ⟨rfl, n, hn, hrest⟩ := hc
      match fuel, hf with
      | f + 1, hf =>
          have hrec := ih hrest (Nat.le_of_succ_le_succ hf)
          simp [traverse, hn, hrec, valuesAlong]

theorem good_postAppend {v : Int} {st : State} {addrs : List Nat}
    (hg : Good st addrs) : Good (postAppend v st addrs) (addrs ++ [st.nextFresh]) := by
  refine ⟨postAppend_chain hg.1 hg.2, fun a ha => ?_⟩
  rw [postAppend_nextFresh]
  rcases List.mem_append.1 ha with ha | ha
  · exact Nat.lt_succ_of_lt (hg.2 a ha)
  · obtain rfl : a = st.nextFresh := List.mem_singleton.1 ha
    exact Nat.lt_succ_self _

theorem buildLoop_spec :
    ∀ (vals : List Int) (st : State) (addrs : List Nat) (fuel : Nat),
      Good st addrs → addrs.length + vals.length ≤ fuel →
      ∃ st' addrs',
        buildLoop vals st fuel = some st' ∧
        buildLoopDirect vals st fuel = some st' ∧
        Good st' (addrs ++ addrs') ∧
        valuesAlong st' (addrs ++ addrs') = valuesAlong st addrs ++ vals ∧
        addrs'.length = vals.length := by
  intro vals
  induction vals with
  | nil =>
      intro st addrs fuel hg _
      exact ⟨st, [], rfl, rfl, by simpa using hg, by simp, rfl⟩
  | cons v vs ih =>
      intro st addrs fuel hg hf
      have hf' : addrs.length + vs.length + 1 ≤ fuel := by
        simp only [List.length_cons] at hf
        omega
      have hlt : addrs.length < fuel := by omega
      have hApp := append_indirect_eq (v := v) hg.1 hg.2 hlt
      have hAppD := append_direct_eq (v := v) hg.1 hg.2 hlt
      have hg' := good_postAppend (v := v) hg
      have hlen' : (addrs ++ [st.nextFresh]).length + vs.length ≤ fuel := by
        simp only [List.length_append, List.length_singleton]
        omega
      obtain ⟨st', addrs', h1, h2, h3, h4, h5⟩ :=
        ih (postAppend v st addrs) (addrs ++ [st.nextFresh]) fuel hg' hlen'
      have hvals := postAppend_values (v := v) hg.1 hg.2
      refine ⟨st', st.nextFresh :: addrs', ?_, ?_, ?_, ?_, ?_⟩
      · show (append_indirect v st fuel).bind (fun st2 => buildLoop vs st2 fuel) = some st'
        rw [hApp]
        exact h1
      · show (append_direct v st fuel).bind (fun st2 => buildLoopDirect vs st2 fuel) = some st'
        rw [hAppD]
        exact h2
      · rw [List.append_cons]
        exact h3
      · rw [List.append_cons, h4, hvals, List.append_assoc]
        rfl
      · simp [h5]

/-! ## The driver: traversal with release, iteration loop, `main` -/

theorem traverseFree_spec (it : Nat) (out : Bool) :
    ∀ {addrs : List Nat} (st : State) {p : Option Nat} {fuel : Nat},
      seg st p addrs none → addrs.length ≤ fuel →
      ∃ st' evs, traverseFree it out st p fuel = some (st', evs, valuesAlong st addrs) := by
  intro addrs
  induction addrs with
  | nil =>
      intro st p fuel hc _
      cases hc
      exact ⟨st, [], by simp [traverseFree, valuesAlong]⟩
  | cons a rest ih =>
      intro st p fuel hc hf
      obtain ⟨rfl, n, hn, hrest⟩ := hc
      match fuel, hf with
      | f + 1, hf =>
          have hnd : (a :: rest).Nodup :=
            chain_nodup (show seg st (some a) (a :: rest) none from ⟨rfl, n, hn, hrest⟩)
          have hanotin : a ∉ rest := (List.nodup_cons.1 hnd).1
          have hne : ∀ b ∈ rest, (st.free a).heap b = st.heap b := by
            intro b hb
            have : b ≠ a := fun h => hanotin (h ▸ hb)
            simp [State.free, this]
          have hrest' : seg (st.free a) n.next rest none := seg_congr hne hrest
          obtain ⟨st', evs, hrec⟩ := ih (st.free a) hrest' (Nat.le_of_succ_le_succ hf)
          refine ⟨st', (if out then [OutEvent.node it a n.value n.next] else []) ++ evs, ?_⟩
          have hvals : valuesAlong (st.free a) rest = valuesAlong st rest :=
            List.map_congr_left (fun b hb => by rw [hne b hb])
          rw [hvals] at hrec
          simp [traverseFree, hn, hrec, valuesAlong]

theorem iterLoop_spec (s : List Char) (out : Bool) {fuel : Nat} (hf : s.length ≤ fuel) :
    ∀ (count iteration : Nat) (st : State),
      ∃ st' evs, iterLoop s out fuel count iteration st =
        some (st', evs, List.replicate count (s.map charToValue)) := by
  intro count
  induction count with
  | zero => intro iteration st; exact ⟨st, [], rfl⟩
  | succ c ih =>
      intro iteration st
      have hg0 : Good { st with head := none } [] := ⟨rfl, by simp⟩
      have hblen : ([] : List Nat).length + (s.map charToValue).length ≤ fuel := by
        simpa using hf
      obtain ⟨st1, addrs', hb1, _, hgood, hvals, hlen⟩ :=
        buildLoop_spec (s.map charToValue) { st with head := none } [] fuel hg0 hblen
      have hchain : seg st1 st1.head addrs' none := by
        have := hgood.1
        simpa [chain] using this
      have hlen' : addrs'.length ≤ fuel := by
        rw [hlen]
        simpa using hf
      obtain ⟨st2, evs, htf⟩ := traverseFree_spec iteration out st1 hchain hlen'
      have hv : valuesAlong st1 addrs' = s.map charToValue := by
        simpa using hvals
      rw [hv] at htf
      obtain ⟨st3, evs3, hrec⟩ := ih (iteration + 1) st2
      refine ⟨st3, evs ++ evs3, ?_⟩
      simp [iterLoop, hb1, htf, hrec, List.replicate_succ]

theorem cMain_usage {argv : List String} {fuel : Nat} (h : argv.length < 3) :
    cMain argv fuel = some (-1, [OutEvent.usage], []) := by
  simp [cMain, h]

theorem cMain_badIter {argv : List String} {fuel : Nat}
    (h3 : ¬ argv.length < 3) (hlt : atoi (argv.getD 2 "") < 1) :
    cMain argv fuel = some (-1, [OutEvent.badIterCount], []) := by
  have hlt' : atoi (argv[2]?.getD "") < 1 := by
    simpa [List.getD_eq_getElem?_getD] using hlt
  simp [cMain, h3, hlt']

theorem cMain_success {argv : List String} {fuel : Nat}
    (h3 : ¬ argv.length < 3) (hge : 1 ≤ atoi (argv.getD 2 ""))
    (hf : (argv.getD 1 "").length ≤ fuel) :
    ∃ evs, cMain argv fuel =
      some (0, evs,
        List.replicate (atoi (argv.getD 2 "")).toNat
          ((argv.getD 1 "").data.map charToValue)) := by
  have hs : ((argv.getD 1 "").data).length ≤ fuel := hf
  obtain ⟨st', evs', hloop⟩ :=
    iterLoop_spec (argv.getD 1 "").data (!(argv.length > 3 : Bool)) hs
      (atoi (argv.getD 2 "")).toNat 0 State.empty
  refine ⟨(if (!(argv.length > 3 : Bool)) then [OutEvent.strategy "Using indirect append"]
            else []) ++ evs', ?_⟩
  have hnlt : ¬ atoi (argv.getD 2 "") < 1 := not_lt.2 hge
  simp only [cMain, if_neg h3, if_neg hnlt]
  rw [hloop]
  rfl

/-! ## Shared concrete facts for instantiating the theorems -/

theorem demo_chain : chain demoState demoState.head [0, 1] :=
  ⟨rfl, { value := 3, next := some 1 }, rfl, rfl,
    { value := 2, next := none }, rfl, rfl⟩

/-! ## The claims -/

/-- C1: for every non-empty sequence of input values, appending each
value in order with `append_indirect` and, separately, with
`append_direct` (each starting from an empty head slot) produce the
same state, and its traversal order equals the input order exactly —
the two append strategies are observably equivalent. -/
theorem C1_strategies_equivalent (vals : List Int) (fuel : Nat)
    (_hne : vals ≠ []) (hf : vals.length ≤ fuel) :
    ∃ st', buildLoop vals State.empty fuel = some st' ∧
      buildLoopDirect vals State.empty fuel = some st' ∧
      traverse st' st'.head fuel = some vals := by
  have hg : Good State.empty [] := ⟨rfl, by simp⟩
  obtain ⟨st', addrs', h1, h2, hgood, hvals, hlen⟩ :=
    buildLoop_spec vals State.empty [] fuel hg (by simpa using hf)
  refine ⟨st', h1, h2, ?_⟩
  have hchain : seg st' st'.head addrs' none := by
    have := hgood.1
    simpa [chain] using this
  have ht := traverse_spec hchain (show addrs'.length ≤ fuel by rw [hlen]; exact hf)
  have hv : valuesAlong st' addrs' = vals := by simpa using hvals
  rw [ht, hv]

theorem C1_witness :
    ([3, 2, 1] : List Int) ≠ [] ∧ ([3, 2, 1] : List Int).length ≤ 3 ∧
    ∃ st', buildLoop [3, 2, 1] State.empty 3 = some st' ∧
      buildLoopDirect [3, 2, 1] State.empty 3 = some st' ∧
      traverse st' st'.head 3 = some [3, 2, 1] :=
  ⟨by decide, by decide, C1_strategies_equivalent [3, 2, 1] 3 (by decide) (by decide)⟩

/-- C2: for every value and every head slot holding a finite list
(possibly empty), `append_indirect` allocates a new node holding that
value with no successor (`next = NULL`), links it as the new tail of
the list, and writes to the head slot itself only when the list was
previously empty. -/
theorem C2_append_indirect_contract (v : Int) (st : State) (addrs : List Nat) (fuel : Nat)
    (hc : chain st st.head addrs) (hfr : ∀ a ∈ addrs, a < st.nextFresh)
    (hf : addrs.length < fuel) :
    ∃ st', append_indirect v st fuel = some st' ∧
      st'.heap st.nextFresh = some { value := v, next := none } ∧
      chain st' st'.head (addrs ++ [st.nextFresh]) ∧
      (addrs = [] → st'.head = some st.nextFresh) ∧
      (addrs ≠ [] → st'.head = st.head) := by
  refine ⟨postAppend v st addrs, append_indirect_eq hc hfr hf,
    postAppend_heap_new hfr, postAppend_chain hc hfr, ?_, postAppend_head_ne_nil⟩
  rintro rfl
  exact postAppend_head_nil

theorem C2_witness :
    chain demoState demoState.head [0, 1] ∧ (∀ a ∈ [0, 1], a < demoState.nextFresh) ∧
    ([0, 1] : List Nat).length < 3 ∧
    ∃ st', append_indirect 7 demoState 3 = some st' ∧
      st'.heap demoState.nextFresh = some { value := 7, next := none } ∧
      chain st' st'.head ([0, 1] ++ [demoState.nextFresh]) ∧
      ([0, 1] = ([] : List Nat) → st'.head = some demoState.nextFresh) ∧
      ([0, 1] ≠ ([] : List Nat) → st'.head = demoState.head) :=
  ⟨demo_chain, by decide, by decide,
    C2_append_indirect_contract 7 demoState [0, 1] 3 demo_chain (by decide) (by decide)⟩

/-- C3: `append_direct` follows exactly the algorithm the spec
describes: read the head slot into a current reference with a previous
reference initialized to none; walk current through successive next
fields, setting previous to current before each advance, until current
is none; then if previous is still none write the new node's reference
into the head slot, otherwise into previous.next.  The spec-modelled
algorithm (`append_direct_specModel`) and the code (`append_direct`)
agree on every input. -/
theorem C3_append_direct_follows_spec (value : Int) (st : State) (fuel : Nat) :
    append_direct_specModel value st fuel = append_direct value st fuel :=
  append_direct_specModel_eq value st fuel

/-- C4: for any sequence S of values, including the empty sequence and
singleton sequences, building a list by appending the elements of S in
order to an initially empty head slot and then collecting the values in
traversal order yields exactly S. -/
theorem C4_round_trip (vals : List Int) (fuel : Nat) (hf : vals.length ≤ fuel) :
    ∃ st', buildLoop vals State.empty fuel = some st' ∧
      traverse st' st'.head fuel = some vals := by
  have hg : Good State.empty [] := ⟨rfl, by simp⟩
  obtain ⟨st', addrs', h1, _, hgood, hvals, hlen⟩ :=
    buildLoop_spec vals State.empty [] fuel hg (by simpa using hf)
  refine ⟨st', h1, ?_⟩
  have hchain : seg st' st'.head addrs' none := by
    have := hgood.1
    simpa [chain] using this
  have ht := traverse_spec hchain (show addrs'.length ≤ fuel by rw [hlen]; exact hf)
  have hv : valuesAlong st' addrs' = vals := by simpa using hvals
  rw [ht, hv]

theorem C4_witness :
    (([] : List Int).length ≤ 0 ∧
      ∃ st', buildLoop [] State.empty 0 = some st' ∧
        traverse st' st'.head 0 = some []) ∧
    (([7] : List Int).length ≤ 1 ∧
      ∃ st', buildLoop [7] State.empty 1 = some st' ∧
        traverse st' st'.head 1 = some [7]) ∧
    (([3, 2, 1] : List Int).length ≤ 5 ∧
      ∃ st', buildLoop [3, 2, 1] State.empty 5 = some st' ∧
        traverse st' st'.head 5 = some [3, 2, 1]) :=
  ⟨⟨by decide, C4_round_trip [] 0 (by decide)⟩,
   ⟨by decide, C4_round_trip [7] 1 (by decide)⟩,
   ⟨by decide, C4_round_trip [3, 2, 1] 5 (by decide)⟩⟩

/-- C5: every append call (either strategy) leaves all previously
reachable nodes unchanged — a non-last node's heap cell is untouched,
and every node, the last included, keeps its value; only the last
node's `next` field is written; and the head slot is mutated only by
the very first append on an empty list, being untouched by every later
append. -/
theorem C5_append_frame (v : Int) (st : State) (addrs : List Nat) (fuel : Nat)
    (hc : chain st st.head addrs) (hfr : ∀ a ∈ addrs, a < st.nextFresh)
    (hf : addrs.length < fuel) :
    ∃ st', append_indirect v st fuel = some st' ∧ append_direct v st fuel = some st' ∧
      (∀ a ∈ addrs, addrs.getLast? ≠ some a → st'.heap a = st.heap a) ∧
      (∀ a, addrs.getLast? = some a →
        ∃ n, st.heap a = some n ∧ st'.heap a = some { n with next := some st.nextFresh }) ∧
      (∀ a ∈ addrs, (st'.heap a).map list_entry.value = (st.heap a).map list_entry.value) ∧
      (addrs ≠ [] → st'.head = st.head) ∧
      (addrs = [] → st'.head = some st.nextFresh) := by
  refine ⟨postAppend v st addrs, append_indirect_eq hc hfr hf, append_direct_eq hc hfr hf,
    fun a ha hl => postAppend_heap_stable hfr ha hl,
    fun a hl => postAppend_heap_last hc hfr hl, ?_,
    postAppend_head_ne_nil, ?_⟩
  · intro a ha
    by_cases hl : addrs.getLast? = some a
    · obtain ⟨n, hn, hp⟩ := postAppend_heap_last (v := v) hc hfr hl
      rw [hn, hp]
      rfl
    · rw [postAppend_heap_stable hfr ha hl]
  · rintro rfl
    exact postAppend_head_nil

theorem C5_witness :
    chain demoState demoState.head [0, 1] ∧ (∀ a ∈ [0, 1], a < demoState.nextFresh) ∧
    ([0, 1] : List Nat).length < 4 ∧
    ∃ st', append_indirect 9 demoState 4 = some st' ∧ append_direct 9 demoState 4 = some st' ∧
      (∀ a ∈ [0, 1], ([0, 1] : List Nat).getLast? ≠ some a → st'.heap a = demoState.heap a) ∧
      (∀ a, ([0, 1] : List Nat).getLast? = some a →
        ∃ n, demoState.heap a = some n ∧
          st'.heap a = some { n with next := some demoState.nextFresh }) ∧
      (∀ a ∈ [0, 1],
        (st'.heap a).map list_entry.value = (demoState.heap a).map list_entry.value) ∧
      ([0, 1] ≠ ([] : List Nat) → st'.head = demoState.head) ∧
      ([0, 1] = ([] : List Nat) → st'.head = some demoState.nextFresh) :=
  ⟨demo_chain, by decide, by decide,
    C5_append_frame 9 demoState [0, 1] 4 demo_chain (by decide) (by decide)⟩

/-- C6: every append operation (either strategy), applied to a list
satisfying the chain invariant, preserves it: the result is again a
`NULL`-terminated chain, and its address list has no duplicates — no
node is reachable from itself by repeated traversal of `next`, and no
node is pointed to by two different slots (head slot or `next` fields)
of the chain. -/
theorem C6_append_preserves_invariant (v : Int) (st : State) (addrs : List Nat) (fuel : Nat)
    (hc : chain st st.head addrs) (hfr : ∀ a ∈ addrs, a < st.nextFresh)
    (hf : addrs.length < fuel) :
    ∃ st', append_indirect v st fuel = some st' ∧ append_direct v st fuel = some st' ∧
      chain st' st'.head (addrs ++ [st.nextFresh]) ∧
      (addrs ++ [st.nextFresh]).Nodup :=
  ⟨postAppend v st addrs, append_indirect_eq hc hfr hf, append_direct_eq hc hfr hf,
    postAppend_chain (v := v) hc hfr, chain_nodup (postAppend_chain (v := v) hc hfr)⟩

theorem C6_witness :
    chain demoState demoState.head [0, 1] ∧ (∀ a ∈ [0, 1], a < demoState.nextFresh) ∧
    ([0, 1] : List Nat).length < 3 ∧
    ∃ st', append_indirect 4 demoState 3 = some st' ∧ append_direct 4 demoState 3 = some st' ∧
      chain st' st'.head ([0, 1] ++ [demoState.nextFresh]) ∧
      ([0, 1] ++ [demoState.nextFresh]).Nodup :=
  ⟨demo_chain, by decide, by decide,
    C6_append_preserves_invariant 4 demoState [0, 1] 3 demo_chain (by decide) (by decide)⟩

/-- C7: the program exits with a non-zero status and prints the usage
message when fewer than two command-line arguments are supplied (i.e.
`argc < 3` counting the program name), exits with a non-zero status and
an error message when the iteration-count argument parses to less than
1, and in all other invocations exits with status zero; on the two
error paths the list of built lists is empty — no list is ever
built. -/
theorem C7_exit_behavior (argv : List String) (fuel : Nat) :
    (argv.length < 3 →
      cMain argv fuel = some (-1, [OutEvent.usage], []) ∧ (-1 : Int) ≠ 0) ∧
    (¬ argv.length < 3 → atoi (argv.getD 2 "") < 1 →
      cMain argv fuel = some (-1, [OutEvent.badIterCount], []) ∧ (-1 : Int) ≠ 0) ∧
    (¬ argv.length < 3 → 1 ≤ atoi (argv.getD 2 "") → (argv.getD 1 "").length ≤ fuel →
      ∃ evs valss, cMain argv fuel = some (0, evs, valss)) := by
  refine ⟨fun h => ⟨cMain_usage h, by decide⟩,
    fun h3 hlt => ⟨cMain_badIter h3 hlt, by decide⟩,
    fun h3 hge hf => ?_⟩
  obtain ⟨evs, h⟩ := cMain_success h3 hge hf
  exact ⟨evs, _, h⟩

theorem C7_witness :
    (cMain ["prog"] 5 = some (-1, [OutEvent.usage], []) ∧ (-1 : Int) ≠ 0) ∧
    (cMain ["prog", "321", "0"] 5 = some (-1, [OutEvent.badIterCount], []) ∧ (-1 : Int) ≠ 0) ∧
    (∃ evs valss, cMain ["prog", "321", "2"] 5 = some (0, evs, valss)) :=
  ⟨(C7_exit_behavior ["prog"] 5).1 (by decide),
   (C7_exit_behavior ["prog", "321", "0"] 5).2.1 (by decide) (by decide),
   (C7_exit_behavior ["prog", "321", "2"] 5).2.2 (by decide) (by decide) (by decide)⟩

/-- C8: for every character `c` of the first command-line argument, the
value appended — and hence observed in every iteration's traversal — is
exactly the integer code of `c` minus the code of `'0'` (48), with no
validation: a digit yields its decimal value and any non-digit yields
the corresponding out-of-range but well-defined integer, appended
as-is. -/
theorem C8_char_arithmetic (argv : List String) (fuel : Nat)
    (h3 : ¬ argv.length < 3) (hge : 1 ≤ atoi (argv.getD 2 ""))
    (hf : (argv.getD 1 "").length ≤ fuel) :
    ∃ evs valss, cMain argv fuel = some (0, evs, valss) ∧
      ∀ l ∈ valss, l = (argv.getD 1 "").data.map (fun c => (c.toNat : Int) - 48) := by
  obtain ⟨evs, h⟩ := cMain_success h3 hge hf
  refine ⟨evs, _, h, fun l hl => ?_⟩
  rw [List.eq_of_mem_replicate hl]
  rfl

theorem C8_witness :
    ¬ (["prog", "3x", "1"] : List String).length < 3 ∧
    1 ≤ atoi ((["prog", "3x", "1"] : List String).getD 2 "") ∧
    ((["prog", "3x", "1"] : List String).getD 1 "").length ≤ 2 ∧
    ∃ evs valss, cMain ["prog", "3x", "1"] 2 = some (0, evs, valss) ∧
      ∀ l ∈ valss,
        l = ((["prog", "3x", "1"] : List String).getD 1 "").data.map
              (fun c => (c.toNat : Int) - 48) :=
  ⟨by decide, by decide, by decide,
    C8_char_arithmetic ["prog", "3x", "1"] 2 (by decide) (by decide) (by decide)⟩

/-- C9: for every input string S and every iteration count K ≥ 1, the K
build-traverse-destroy cycles each start from a freshly empty list
handle and produce structurally identical lists: the sequence of
per-iteration traversal value sequences is exactly K copies of the
value sequence derived from S — no list state carries over between
iterations. -/
theorem C9_repetition_invariance (argv : List String) (fuel : Nat)
    (h3 : ¬ argv.length < 3) (hge : 1 ≤ atoi (argv.getD 2 ""))
    (hf : (argv.getD 1 "").length ≤ fuel) :
    ∃ evs, cMain argv fuel =
      some (0, evs,
        List.replicate (atoi (argv.getD 2 "")).toNat
          ((argv.getD 1 "").data.map charToValue)) :=
  cMain_success h3 hge hf

theorem C9_witness :
    ¬ (["prog", "321", "3"] : List String).length < 3 ∧
    1 ≤ atoi ((["prog", "321", "3"] : List String).getD 2 "") ∧
    ((["prog", "321", "3"] : List String).getD 1 "").length ≤ 3 ∧
    ∃ evs, cMain ["prog", "321", "3"] 3 =
      some (0, evs,
        List.replicate (atoi ((["prog", "321", "3"] : List String).getD 2 "")).toNat
          (((["prog", "321", "3"] : List String).getD 1 "").data.map charToValue)) :=
  ⟨by decide, by decide, by decide,
    C9_repetition_invariance ["prog", "321", "3"] 3 (by decide) (by decide) (by decide)⟩

/-- C10: for every head slot holding a finite acyclic list, the
traversal loop of `append_indirect` (`findTail`) and the traversal loop
of `append_direct` (`walkDirect`) each terminate, after exactly
length-of-list iterations: fuel covering the chain length suffices and
one unit less does not, so both append loops are total on finite
chains. -/
theorem C10_loops_terminate (st : State) (addrs : List Nat)
    (hc : chain st st.head addrs) :
    findTail st none (addrs.length + 1) = some (lastSlot none addrs) ∧
    findTail st none addrs.length = none ∧
    walkDirect st st.head none addrs.length = some (lastSlot none addrs) ∧
    (addrs ≠ [] → walkDirect st st.head none (addrs.length - 1) = none) := by
  have hr : readSlot st none = some st.head := rfl
  exact ⟨findTail_spec none hc hr (Nat.lt_succ_self _),
    findTail_min none hc hr,
    walkDirect_spec none hc (le_refl _),
    fun hne => walkDirect_min none hc hne⟩

theorem C10_witness :
    chain demoState demoState.head [0, 1] ∧
    (findTail demoState none (([0, 1] : List Nat).length + 1) =
        some (lastSlot none [0, 1]) ∧
      findTail demoState none ([0, 1] : List Nat).length = none ∧
      walkDirect demoState demoState.head none ([0, 1] : List Nat).length =
        some (lastSlot none [0, 1]) ∧
      ([0, 1] ≠ ([] : List Nat) →
        walkDirect demoState demoState.head none (([0, 1] : List Nat).length - 1) = none)) :=
  ⟨demo_chain, C10_loops_terminate demoState [0, 1] demo_chain⟩

end IndirectPtr
